import Mathlib

/-!
# Verification of the tss-crypto threshold-cryptography library

Shallow embedding of the library's three cores and proofs about them:

* `pkg/mod/mod.go` — modular-arithmetic helpers over `math/big` integers.
  Go's `big.Int` is embedded as `ℤ`; Go's `Mod`/`%`-on-big.Int is Euclidean
  (result in `[0, m)` for `m > 0`), which is `Int.emod` (`%` on `ℤ` in Lean).
* `pkg/prime` (safe-prime generator, second half of `mod.go` in the source
  tree) — `uint64` values are embedded as `ℕ`, with `% 2 ^ 64` written where
  the source's `uint64` addition may wrap.
* `pkg/paillier/paillier.go` — Paillier keys, encryption and randomness
  recovery.
* `pkg/vss/feldman.go` and `pkg/ec` — Feldman VSS over an elliptic-curve
  group.  The curves used by the library (`crypto/elliptic`) are cyclic of
  prime order `N` with base point `G`; a curve point is embedded by its
  discrete logarithm with respect to `G`, reduced into `[0, N)`, together
  with the curve it lives on.  Nil-able Go pointers are embedded as `Option`.

Fallible Go functions returning `(value, error)` are embedded as `Option`
(`none` = error).  Where a code path dereferences a nil pointer (a Go runtime
panic), the embedding returns `none` of an outer `Option` so that the panic is
distinguishable from an ordinary error return.
-/

/-! ## pkg/mod: modular arithmetic helpers (mod.go, lines 1-53)

Each helper takes `big.Int` arguments; the results of Go's `Mod` are in
`[0, m)` for `m > 0`, exactly `Int.emod`. -/

/-- `ModMul` computes `(a * b) mod m` (mod.go line 6). -/
def ModMul (a b m : ℤ) : ℤ := a * b % m

/-- `ModAdd` computes `(a + b) mod m` (mod.go line 13). -/
def ModAdd (a b m : ℤ) : ℤ := (a + b) % m

/-- `ModSub` computes `(a - b) mod m`, in `[0, m)` for `m > 0` (mod.go line 20). -/
def ModSub (a b m : ℤ) : ℤ := (a - b) % m

/-- `ModExp` computes `base ^ exp mod m` (mod.go line 27).  Every exponent the
library passes is a nonnegative `big.Int`; it is embedded as `ℕ`. -/
def ModExp (base : ℤ) (exp : ℕ) (m : ℤ) : ℤ := base ^ exp % m

/-- `ModInverse` (mod.go line 32): the inverse of `a` modulo `m`, or `none`
(the `NoInverseError` branch) when `gcd a m ≠ 1`, mirroring `big.Int.ModInverse`
which returns nil exactly when the inverse does not exist.  The inverse that
`big.Int` produces lies in `[0, m)`; the extended-gcd coefficient reduced
modulo `m` is that value. -/
def ModInverse (a m : ℤ) : Option ℤ :=
  if Int.gcd a m = 1 then some (Int.gcdA a m % m) else none

/-- `Mod` computes `a mod m` (mod.go line 41); named `ModInt` because `Mod` is
taken by the core numeric typeclass. -/
def ModInt (a m : ℤ) : ℤ := a % m

/-! ### Arithmetic facts about the helpers -/

theorem ModMul_cast {P : ℕ} (a b : ℤ) :
    ((ModMul a b (P : ℤ) : ℤ) : ZMod P) = (a : ZMod P) * (b : ZMod P) := by
  simp [ModMul, ZMod.intCast_mod]

theorem ModAdd_cast {P : ℕ} (a b : ℤ) :
    ((ModAdd a b (P : ℤ) : ℤ) : ZMod P) = (a : ZMod P) + (b : ZMod P) := by
  simp [ModAdd, ZMod.intCast_mod]

theorem ModSub_cast {P : ℕ} (a b : ℤ) :
    ((ModSub a b (P : ℤ) : ℤ) : ZMod P) = (a : ZMod P) - (b : ZMod P) := by
  simp [ModSub, ZMod.intCast_mod]

theorem ModExp_cast {P : ℕ} (a : ℤ) (k : ℕ) :
    ((ModExp a k (P : ℤ) : ℤ) : ZMod P) = (a : ZMod P) ^ k := by
  simp [ModExp, ZMod.intCast_mod]

theorem ModMul_nonneg {a b m : ℤ} (hm : 0 < m) : 0 ≤ ModMul a b m :=
  Int.emod_nonneg _ (ne_of_gt hm)

theorem ModMul_lt {a b m : ℤ} (hm : 0 < m) : ModMul a b m < m :=
  Int.emod_lt_of_pos _ hm

theorem ModAdd_nonneg {a b m : ℤ} (hm : 0 < m) : 0 ≤ ModAdd a b m :=
  Int.emod_nonneg _ (ne_of_gt hm)

theorem ModAdd_lt {a b m : ℤ} (hm : 0 < m) : ModAdd a b m < m :=
  Int.emod_lt_of_pos _ hm

/-- If `ModInverse` succeeds modulo a positive modulus, the result multiplies
with `a` to `1` modulo `P`, and lies in `[0, P)`. -/
theorem ModInverse_spec {P : ℕ} (hP : 0 < P) {a r : ℤ}
    (h : ModInverse a (P : ℤ) = some r) :
    (a : ZMod P) * (r : ZMod P) = 1 ∧ 0 ≤ r ∧ r < (P : ℤ) := by
  unfold ModInverse at h
  split at h
  case isTrue hg =>
    obtain rfl : Int.gcdA a (P : ℤ) % (P : ℤ) = r := by injection h
    have hb : (Int.gcd a (P : ℤ) : ℤ) = a * Int.gcdA a (P : ℤ) + (P : ℤ) * Int.gcdB a (P : ℤ) :=
      Int.gcd_eq_gcd_ab a (P : ℤ)
    rw [hg] at hb
    have hcast : ((1 : ℤ) : ZMod P) =
        ((a * Int.gcdA a (P : ℤ) + (P : ℤ) * Int.gcdB a (P : ℤ) : ℤ) : ZMod P) := by
      exact_mod_cast congrArg (fun z : ℤ => ((z : ZMod P))) hb
    push_cast at hcast
    simp only [ZMod.natCast_self, zero_mul, add_zero] at hcast
    refine ⟨?_, Int.emod_nonneg _ (by exact_mod_cast hP.ne'), Int.emod_lt_of_pos _ (by exact_mod_cast hP)⟩
    have : ((Int.gcdA a (P : ℤ) % (P : ℤ) : ℤ) : ZMod P) = ((Int.gcdA a (P : ℤ) : ℤ) : ZMod P) := by
      exact_mod_cast ZMod.intCast_mod (Int.gcdA a (P : ℤ)) P
    rw [this]
    exact hcast.symm
  case isFalse => exact absurd h (by simp)

/-- `ModInverse` fails exactly when the gcd is not 1. -/
theorem ModInverse_eq_none {a m : ℤ} (h : Int.gcd a m ≠ 1) : ModInverse a m = none := by
  simp [ModInverse, h]

/-! ## pkg/prime: the safe-prime generator (mod.go, second file, lines 54-484)

`uint64` is embedded as `ℕ` with `% 2 ^ 64` at the one place the source adds
two `uint64` values that may wrap. -/

/-- `Config` (prime source lines 72-85). -/
structure Config where
  WindowDeltaMax : ℕ
  MillerRabinRounds : ℤ
  UseFermatQ : Bool
  UseFermatP : Bool
  FilterForSophie : Bool
deriving DecidableEq

/-- `DefaultConfig` (prime source lines 87-95). -/
def DefaultConfig : Config :=
  { WindowDeltaMax := 1024
    MillerRabinRounds := 32
    UseFermatQ := false
    UseFermatP := true
    FilterForSophie := true }

/-- `primesGroups` (prime source lines 110-134), the grouped small primes of
the Wiener combined sieve. -/
def primesGroups : List (List ℕ) :=
  [[5, 7, 11, 13, 17, 19, 23, 29, 31, 37, 41, 43, 47, 53],
   [59, 61, 67, 71, 73, 79, 83, 89, 97],
   [101, 103, 107, 109, 113, 127, 131, 137, 139],
   [149, 151, 157, 163, 167, 173, 179, 181],
   [191, 193, 197, 199, 211, 223, 227, 229],
   [233, 239, 241, 251, 257, 263, 269],
   [271, 277, 281, 283, 293, 307, 311],
   [317, 331, 337, 347, 349, 353, 359],
   [367, 373, 379, 383, 389, 397, 401],
   [409, 419, 421, 431, 433, 439, 443],
   [449, 457, 461, 463, 467, 479, 487],
   [491, 499, 503, 509, 521, 523, 541],
   [557, 563, 569, 571, 577, 587],
   [593, 599, 601, 607, 613, 617],
   [619, 631, 641, 643, 647, 653],
   [659, 661, 673, 677, 683, 691],
   [701, 709, 719, 727, 733, 739],
   [743, 751, 757, 761, 769, 773],
   [787, 797, 809, 811, 821, 823],
   [827, 829, 839, 853, 857, 859],
   [863, 877, 881, 883, 887, 907],
   [911, 919, 929, 937, 941, 947],
   [953, 967, 971, 977, 983, 991]]

/-- `primeProductsBig` (prime source lines 136-160): the hardcoded per-group
products, as the exact `uint64` literals of the source. -/
def primeProductsBig : List ℕ :=
  [5431526412865007455,
   6437928885641249269,
   4343678784233766587,
   538945254996352681,
   3534749459194562711,
   61247129307885343,
   166996819598798201,
   542676746453092519,
   1230544604996048471,
   2618501576975440661,
   4771180125133726009,
   9247077179230889629,
   34508483876655991,
   49010633640532829,
   68015277240951437,
   93667592535644987,
   140726526226538479,
   191079950785756457,
   278064420037666463,
   361197734649700343,
   473672212426732757,
   649424689916978839,
   851648411420003101]

/-- `primeProductsUint64` (prime source lines 163-169): `b.Uint64()` of each
hardcoded product; every literal is below `2 ^ 64`, so the conversion is the
identity on the values. -/
def primeProductsUint64 : List ℕ := primeProductsBig.map (· % 2 ^ 64)

/-- `smallPrimesForP` (prime source lines 172-177). -/
def smallPrimesForP : List ℤ :=
  [3, 5, 7, 11, 13, 17, 19, 23, 29, 31, 37, 41, 43, 47, 53]

/-- `precomputeBaseRemainders` (prime source lines 311-319):
`remainders[i] = q0 mod primeProductsBig[i]`. -/
def precomputeBaseRemainders (q0 : ℕ) : List ℕ :=
  primeProductsBig.map fun product => q0 % product

/-- `passesCombinedSieve` (prime source lines 390-409).  The `uint64` addition
`baseRemainder + delta` is embedded with its wrap-around `% 2 ^ 64`; the rest
of the arithmetic cannot overflow. -/
def passesCombinedSieve (baseRemainders : List ℕ) (delta : ℕ)
    (filterForSophie : Bool) : Bool :=
  (List.range baseRemainders.length).all fun i =>
    let product := primeProductsUint64.getD i 0
    let qModProduct := (baseRemainders.getD i 0 + delta) % 2 ^ 64 % product
    (primesGroups.getD i []).all fun prime =>
      let residue := qModProduct % prime
      if residue = 0 then false
      else if residue = (prime - 1) / 2 then false
      else if filterForSophie ∧ residue = 1 then false
      else true

/-- `SafePrime` (prime source lines 67-70): `P` and `Q` are `big.Int`. -/
structure SafePrime where
  P : ℤ
  Q : ℤ
deriving DecidableEq

/-- `candidate` (prime source lines 205-208); its fields are built by
`buildCandidate` from a nonnegative seed and offset, so they are embedded
as `ℕ`. -/
structure Candidate where
  q : ℕ
  p : ℕ
deriving DecidableEq

/-- `buildCandidate` (prime source lines 361-372): `q = q0 + delta`,
`p = 2*q + 1` (`Lsh` by 1 then `Add` 1). -/
def buildCandidate (q0 delta : ℕ) : Candidate :=
  let q := q0 + delta
  { q := q, p := 2 * q + 1 }

/-- The value `generator.generate` returns on success (prime source line 255):
`SafePrime{P: candidate.p, Q: candidate.q}` for the candidate built from the
current seed `q0` and offset `delta`. -/
def generatorOutput (q0 delta : ℕ) : SafePrime :=
  { P := ((buildCandidate q0 delta).p : ℤ), Q := ((buildCandidate q0 delta).q : ℤ) }

/-- `GenerateSafePrime` (prime source lines 183-196): validate `bits`,
substitute `DefaultConfig()` for a nil `cfg` and the system cryptographic
reader `rand.Reader` for a nil `r`, then run `(&generator{cfg, r}).generate`.
The generator body is embedded as an abstract function `gen` of exactly the
data the source passes it, and the system reader as a distinguished value
`sysRand` of the abstract reader type, so the dispatch's behavior is stated
for every generator behavior. -/
def GenerateSafePrime {R S : Type} (gen : ℤ → Config → R → S) (sysRand : R)
    (bits : ℤ) (cfg : Option Config) (r : Option R) : Option S :=
  if bits < 3 then none
  else some (gen bits (cfg.getD DefaultConfig) (r.getD sysRand))

/-! ### Facts about the sieve tables -/

/-- Every prime in the group tables is odd and at least 5. -/
theorem primesGroups_entries_odd : ∀ g ∈ primesGroups, ∀ r ∈ g, r % 2 = 1 ∧ 5 ≤ r := by
  decide

/-- Every hardcoded product fits in a `uint64`. -/
theorem primeProductsBig_lt_two_pow : ∀ x ∈ primeProductsBig, x < 2 ^ 64 := by
  decide

/-- Every hardcoded product is positive. -/
theorem primeProductsBig_pos : ∀ x ∈ primeProductsBig, 0 < x := by
  decide

/-- Each prime of group `i` divides the hardcoded product of group `i` (this
holds although the group-1 product is not the exact product of its primes). -/
theorem primesGroups_dvd_product :
    ∀ i < primesGroups.length, ∀ r ∈ primesGroups.getD i [],
      primeProductsBig.getD i 0 % r = 0 := by
  decide

theorem primeProductsBig_length : primeProductsBig.length = primesGroups.length := by
  decide

/-- For an odd modulus `r > 1`, having residue `(r-1)/2` is the same as `r`
dividing `2*q + 1`. -/
theorem mod_eq_half_iff {r q : ℕ} (hodd : r % 2 = 1) (h1 : 1 < r) :
    q % r = (r - 1) / 2 ↔ r ∣ 2 * q + 1 := by
  have hcong : 2 * (q % r) + 1 ≡ 2 * q + 1 [MOD r] :=
    ((Nat.mod_modEq q r).mul_left 2).add_right 1
  have hdvd_iff : r ∣ 2 * q + 1 ↔ r ∣ 2 * (q % r) + 1 := by
    constructor
    · intro h
      exact (Nat.modEq_zero_iff_dvd).mp ((hcong.trans ((Nat.modEq_zero_iff_dvd).mpr h)))
    · intro h
      exact (Nat.modEq_zero_iff_dvd).mp ((hcong.symm.trans ((Nat.modEq_zero_iff_dvd).mpr h)))
  rw [hdvd_iff]
  constructor
  · intro h
    have hr : 2 * (q % r) + 1 = r := by omega
    rw [hr]
  · intro h
    have hs : q % r < r := Nat.mod_lt _ (by omega)
    obtain ⟨k, hk⟩ := h
    have hk1 : k = 1 := by
      rcases Nat.lt_or_ge k 2 with h2 | h2
      · rcases Nat.lt_or_ge k 1 with h0 | h0
        · have hk0 : k = 0 := by omega
          subst hk0; omega
        · omega
      · have h2r : r * 2 ≤ r * k := Nat.mul_le_mul_left r h2
        rw [← hk] at h2r
        omega
    subst hk1
    omega

/-- Entries of `precomputeBaseRemainders`. -/
theorem precompute_getD (q0 : ℕ) {i : ℕ} (hi : i < primeProductsBig.length) :
    (precomputeBaseRemainders q0).getD i 0 = q0 % primeProductsBig.getD i 0 := by
  unfold precomputeBaseRemainders
  rw [List.getD_eq_getElem _ _ (by simpa using hi), List.getElem_map,
    List.getD_eq_getElem _ _ hi]

/-- **C7**: with `baseRemainders` precomputed from the seed `q0` as the source
does, and assuming the `uint64` addition `baseRemainders[i] + delta` does not
overflow, `passesCombinedSieve` returns `false` exactly when some prime `r` of
the group tables divides `q = q0 + delta`, or divides `2*q + 1` (residue
`(r-1)/2`), or — when `filterForSophie` is set — `q ≡ 1 (mod r)` (`r` divides
`(q-1)/2` for the odd candidates the generator scans); otherwise it returns
`true`. -/
theorem passesCombinedSieve_iff (q0 delta : ℕ) (hq0 : q0 % 2 = 1)
    (hnof : ∀ rem ∈ precomputeBaseRemainders q0, rem + delta < 2 ^ 64)
    (sophie : Bool) :
    passesCombinedSieve (precomputeBaseRemainders q0) delta sophie = false ↔
      ∃ i < primesGroups.length, ∃ r ∈ primesGroups.getD i [],
        (r ∣ (q0 + delta) ∨ r ∣ (2 * (q0 + delta) + 1) ∨
          (sophie = true ∧ (q0 + delta) % r = 1)) := by
  have hlenpre : (precomputeBaseRemainders q0).length = primesGroups.length := by
    simp [precomputeBaseRemainders, ← primeProductsBig_length]
  have hres : ∀ i, i < primesGroups.length →
      ((precomputeBaseRemainders q0).getD i 0 + delta) % 2 ^ 64
          % primeProductsUint64.getD i 0 = (q0 + delta) % primeProductsBig.getD i 0 := by
    intro i hi
    have hib : i < primeProductsBig.length := by rw [primeProductsBig_length]; exact hi
    have hmem : (precomputeBaseRemainders q0).getD i 0 ∈ precomputeBaseRemainders q0 := by
      rw [List.getD_eq_getElem _ _ (by rw [hlenpre]; exact hi)]
      exact List.getElem_mem _
    have hsmall : (precomputeBaseRemainders q0).getD i 0 + delta < 2 ^ 64 := hnof _ hmem
    have hu64 : primeProductsUint64.getD i 0 = primeProductsBig.getD i 0 := by
      unfold primeProductsUint64
      rw [List.getD_eq_getElem _ _ (by simpa using hib), List.getElem_map,
        List.getD_eq_getElem _ _ hib]
      exact Nat.mod_eq_of_lt (primeProductsBig_lt_two_pow _ (List.getElem_mem _))
    rw [Nat.mod_eq_of_lt hsmall, hu64, precompute_getD q0 hib, Nat.mod_add_mod]
  have hrdvd : ∀ i, i < primesGroups.length → ∀ r ∈ primesGroups.getD i [],
      (q0 + delta) % primeProductsBig.getD i 0 % r = (q0 + delta) % r := by
    intro i hi r hr
    exact Nat.mod_mod_of_dvd _
      (Nat.dvd_of_mod_eq_zero (primesGroups_dvd_product i hi r hr))
  have hrfacts : ∀ i, i < primesGroups.length → ∀ r ∈ primesGroups.getD i [],
      r % 2 = 1 ∧ 5 ≤ r := by
    intro i hi r hr
    have hg : primesGroups.getD i [] ∈ primesGroups := by
      rw [List.getD_eq_getElem _ _ hi]; exact List.getElem_mem _
    exact primesGroups_entries_odd _ hg r hr
  unfold passesCombinedSieve
  rw [hlenpre, ← Bool.not_eq_true, List.all_eq_true]
  push_neg
  simp only [Bool.not_eq_true, List.mem_range]
  refine exists_congr fun i => ?_
  constructor
  · rintro ⟨hi, hall⟩
    refine ⟨hi, ?_⟩
    rw [← Bool.not_eq_true, List.all_eq_true] at hall
    push_neg at hall
    simp only [Bool.not_eq_true] at hall
    obtain ⟨r, hr, hfalse⟩ := hall
    refine ⟨r, hr, ?_⟩
    rw [hres i hi, hrdvd i hi r hr] at hfalse
    obtain ⟨hodd, h5⟩ := hrfacts i hi r hr
    split_ifs at hfalse with h1 h2 h3
    · exact Or.inl (Nat.dvd_of_mod_eq_zero h1)
    · exact Or.inr (Or.inl ((mod_eq_half_iff hodd (by omega)).mp h2))
    · exact Or.inr (Or.inr h3)
  · rintro ⟨hi, r, hr, hcase⟩
    refine ⟨hi, ?_⟩
    rw [← Bool.not_eq_true, List.all_eq_true]
    push_neg
    simp only [Bool.not_eq_true]
    refine ⟨r, hr, ?_⟩
    rw [hres i hi, hrdvd i hi r hr]
    obtain ⟨hodd, h5⟩ := hrfacts i hi r hr
    split_ifs with a1 a2 a3
    · rfl
    · rfl
    · rfl
    rcases hcase with hc | hc | hc
    · obtain ⟨k, hk⟩ := hc
      exact absurd (by rw [hk]; exact Nat.mul_mod_right r k) a1
    · exact absurd ((mod_eq_half_iff hodd (by omega)).mpr hc) a2
    · exact absurd hc a3

/-- Witness for `passesCombinedSieve_iff` at the concrete seed `q0 = 1`,
`delta = 0`, Sophie filtering on: `q = 1` has residue 1 modulo 5, so the
sieve rejects. -/
theorem passesCombinedSieve_iff_witness :
    passesCombinedSieve (precomputeBaseRemainders 1) 0 true = false :=
  (passesCombinedSieve_iff 1 0 (by decide) (by decide) true).mpr
    ⟨0, by decide, 5, by decide, Or.inr (Or.inr ⟨rfl, by decide⟩)⟩

/-- Reference table of the specification, section 6 ("Exact group membership
(reference)"), restated verbatim for comparison with the source's
`primesGroups`. -/
def specReferenceGroups : List (List ℕ) :=
  [[5, 7, 11, 13, 17, 19, 23, 29, 31, 37, 41, 43, 47, 53],
   [59, 61, 67, 71, 73, 79, 83, 89, 97],
   [101, 103, 107, 109, 113, 127, 131, 137, 139],
   [149, 151, 157, 163, 167, 173, 179, 181],
   [191, 193, 197, 199, 211, 223, 227, 229],
   [233, 239, 241, 251, 257, 263, 269],
   [271, 277, 281, 283, 293, 307, 311],
   [317, 331, 337, 347, 349, 353, 359],
   [367, 373, 379, 383, 389, 397, 401],
   [409, 419, 421, 431, 433, 439, 443],
   [449, 457, 461, 463, 467, 479, 487],
   [491, 499, 503, 509, 521, 523, 541],
   [557, 563, 569, 571, 577, 587],
   [593, 599, 601, 607, 613, 617],
   [619, 631, 641, 643, 647, 653],
   [659, 661, 673, 677, 683, 691],
   [701, 709, 719, 727, 733, 739],
   [743, 751, 757, 761, 769, 773],
   [787, 797, 809, 811, 821, 823],
   [827, 829, 839, 853, 857, 859],
   [863, 877, 881, 883, 887, 907],
   [911, 919, 929, 937, 941, 947],
   [953, 967, 971, 977, 983, 991]]

/-- **C8**: the group memberships equal the spec's reference table, and every
hardcoded product equals the exact product of its group's primes EXCEPT group
1: `primeProductsBig[1] = 6437928885641249269 = 7 * 13 * 70746471270782959`,
which is `7 * 13` times the exact product `70746471270782959` of the primes
`{59, ..., 97}` of group 1 — contradicting both the claim and the source's own
comment that `primeProductsBig[i]` is the product of `primesGroups[i]`. -/
theorem primeProducts_group1_mismatch :
    primesGroups = specReferenceGroups ∧
    (primesGroups.getD 1 []).prod = 70746471270782959 ∧
    primeProductsBig.getD 1 0 = 6437928885641249269 ∧
    primeProductsBig.getD 1 0 ≠ (primesGroups.getD 1 []).prod ∧
    primeProductsBig.getD 1 0 = 7 * 13 * (primesGroups.getD 1 []).prod ∧
    ∀ i < primesGroups.length, i ≠ 1 →
      primeProductsBig.getD i 0 = (primesGroups.getD i []).prod := by
  refine ⟨rfl, by decide, rfl, by decide, by decide, by decide⟩

/-- **C10**: for `bits ≥ 3`, `GenerateSafePrime bits nil nil` does not reject
the nil arguments: the nil config is replaced by `DefaultConfig()` (window
1024, 32 Miller-Rabin rounds, Fermat on `p` only, Sophie filter on), the nil
reader by the system cryptographic reader, and generation then proceeds
exactly as if those arguments had been passed explicitly. -/
theorem generateSafePrime_nil_defaults {R S : Type} (gen : ℤ → Config → R → S)
    (sysRand : R) (bits : ℤ) (hb : 3 ≤ bits) :
    GenerateSafePrime gen sysRand bits none none
        = some (gen bits DefaultConfig sysRand) ∧
    GenerateSafePrime gen sysRand bits none none
        = GenerateSafePrime gen sysRand bits (some DefaultConfig) (some sysRand) ∧
    DefaultConfig.WindowDeltaMax = 1024 ∧ DefaultConfig.MillerRabinRounds = 32 ∧
    DefaultConfig.UseFermatQ = false ∧ DefaultConfig.UseFermatP = true ∧
    DefaultConfig.FilterForSophie = true := by
  have hnb : ¬ bits < 3 := not_lt.mpr hb
  refine ⟨?_, ?_, rfl, rfl, rfl, rfl, rfl⟩ <;> simp [GenerateSafePrime, hnb]

/-- Witness for `generateSafePrime_nil_defaults` at `bits = 3` and a trivial
generator. -/
theorem generateSafePrime_nil_defaults_witness :
    GenerateSafePrime (fun _ _ _ => (0 : ℕ)) () 3 none none = some 0 :=
  (generateSafePrime_nil_defaults (fun _ _ _ => (0 : ℕ)) () 3 (by norm_num)).1

/-! ## pkg/paillier: Paillier encryption (paillier.go) -/

/-- `PublicKey` (paillier.go lines 24-28). -/
structure PublicKey where
  N : ℤ
  N2 : ℤ
  G : ℤ
deriving DecidableEq

/-- `PrivateKey` (paillier.go lines 31-37); the embedded `PublicKey` is
flattened into the three leading fields. -/
structure PrivateKey where
  N : ℤ
  N2 : ℤ
  G : ℤ
  Lambda : ℤ
  PhiN : ℤ
  P : ℤ
  Q : ℤ
deriving DecidableEq

/-- `PrivateKey.Public` (paillier.go lines 54-60). -/
def PrivateKey.Public (priv : PrivateKey) : PublicKey :=
  { N := priv.N, N2 := priv.N2, G := priv.G }

/-- The key arithmetic of `generateKey` after the prime loop (paillier.go
lines 95-114): `N = p*q`, `N2 = N*N`, `G = N+1`, `phiN = (p-1)*(q-1)`,
`lambda = phiN / gcd(p-1, q-1)` (exact division). -/
def keyFromPrimes (p q : ℤ) : PrivateKey :=
  let N := p * q
  { N := N
    N2 := N * N
    G := N + 1
    Lambda := (p - 1) * (q - 1) / (Int.gcd (p - 1) (q - 1) : ℤ)
    PhiN := (p - 1) * (q - 1)
    P := p
    Q := q }

/-- `generateKey` with `safe = true`, i.e. `GenerateKeySafePrime` (paillier.go
lines 49-51 and 62-115), applied to the `SafePrime` that
`prime.GenerateSafePrime` returned: after the `bits` check, the loop sets
`p, q := safePrime.P, safePrime.Q` and exits as soon as `p ≠ q`.  A draw with
`P = Q` would loop for another draw; no claim concerns a second draw, so that
branch is embedded as `none`. -/
def generateKeySafe (bits : ℤ) (sp : SafePrime) : Option PrivateKey :=
  if bits < 2048 then none
  else if sp.P = sp.Q then none
  else some (keyFromPrimes sp.P sp.Q)

/-- `EncryptWithRandomness` (paillier.go lines 131-150).  The exponents `m`
and `N` are validated nonnegative before use, so `ModExp` receives their `ℕ`
value. -/
def EncryptWithRandomness (pub : PublicKey) (m r : ℤ) : Option ℤ :=
  if m < 0 ∨ pub.N ≤ m then none
  else if r ≤ 0 ∨ pub.N ≤ r then none
  else if Int.gcd r pub.N ≠ 1 then none
  else
    let gm := ModExp pub.G m.toNat pub.N2
    let rN := ModExp r pub.N.toNat pub.N2
    some (ModMul gm rN pub.N2)

/-- `RecoverRandomness` (paillier.go lines 222-244): `c' = c * (1 - m*N) mod
N²`, `M = N⁻¹ mod phi(N)` (error when no inverse exists), `r = c'^M mod N`.
The inverse `M` returned by `ModInverse` is nonnegative, so `ModExp` receives
its `ℕ` value. -/
def RecoverRandomness (priv : PrivateKey) (c m : ℤ) : Option ℤ :=
  let mN := ModMul m priv.N priv.N2
  let oneMinus := ModSub 1 mN priv.N2
  let cDash := ModMul c oneMinus priv.N2
  match ModInverse priv.N priv.PhiN with
  | none => none
  | some M => some (ModExp cDash M.toNat priv.N)

/-- **C3**: for `bits ≥ 2048`, key generation with `safe = true` succeeds on
the single `SafePrime` drawn from the generator (whose output is
`{P = 2*(q0+delta)+1, Q = q0+delta}` by `buildCandidate`), and the resulting
key's two Paillier primes come from that single result: `P = 2*Q + 1` and
`N = Q * (2*Q + 1)`. -/
theorem generateKeySafe_single_safePrime (bits : ℤ) (hb : 2048 ≤ bits)
    (q0 delta : ℕ) :
    ∃ key, generateKeySafe bits (generatorOutput q0 delta) = some key ∧
      key.P = 2 * key.Q + 1 ∧ key.N = key.Q * (2 * key.Q + 1) := by
  have hb' : ¬ bits < 2048 := not_lt.mpr hb
  have hpq : (generatorOutput q0 delta).P ≠ (generatorOutput q0 delta).Q := by
    simp only [generatorOutput, buildCandidate]
    intro h
    omega
  refine ⟨keyFromPrimes (generatorOutput q0 delta).P (generatorOutput q0 delta).Q, ?_, ?_, ?_⟩
  · simp [generateKeySafe, hb', hpq]
  · simp only [generatorOutput, buildCandidate, keyFromPrimes]
    push_cast
    ring
  · simp only [generatorOutput, buildCandidate, keyFromPrimes]
    push_cast
    ring

/-- Witness for `generateKeySafe_single_safePrime` at `bits = 2048`,
`q0 = 5`, `delta = 0`. -/
theorem generateKeySafe_single_safePrime_witness :
    ∃ key, generateKeySafe 2048 (generatorOutput 5 0) = some key ∧
      key.P = 2 * key.Q + 1 ∧ key.N = key.Q * (2 * key.Q + 1) :=
  generateKeySafe_single_safePrime 2048 (by norm_num) 5 0

/-- **C4**: every key built from a safe-prime pair `p = 2q + 1, q` (the shape
`GenerateKeySafePrime` produces) has `Q ∣ N` and `Q ∣ phi(N) = 2*Q*(Q-1)`, so
`N` has no inverse modulo `phi(N)` and `RecoverRandomness` returns an error on
every input. -/
theorem recoverRandomness_fails_on_safe_prime_key (q : ℤ) (hq : 2 ≤ q) (c m : ℤ) :
    (q ∣ (keyFromPrimes (2 * q + 1) q).N) ∧
    (keyFromPrimes (2 * q + 1) q).PhiN = 2 * q * (q - 1) ∧
    (q ∣ (keyFromPrimes (2 * q + 1) q).PhiN) ∧
    ModInverse (keyFromPrimes (2 * q + 1) q).N (keyFromPrimes (2 * q + 1) q).PhiN = none ∧
    RecoverRandomness (keyFromPrimes (2 * q + 1) q) c m = none := by
  have hN : (keyFromPrimes (2 * q + 1) q).N = (2 * q + 1) * q := rfl
  have hPhi : (keyFromPrimes (2 * q + 1) q).PhiN = 2 * q * (q - 1) := by
    show (2 * q + 1 - 1) * (q - 1) = 2 * q * (q - 1)
    ring
  have hdvdN : q ∣ (keyFromPrimes (2 * q + 1) q).N := by
    rw [hN]; exact ⟨2 * q + 1, by ring⟩
  have hdvdPhi : q ∣ (keyFromPrimes (2 * q + 1) q).PhiN := by
    rw [hPhi]; exact ⟨2 * (q - 1), by ring⟩
  have hgcd : Int.gcd (keyFromPrimes (2 * q + 1) q).N (keyFromPrimes (2 * q + 1) q).PhiN ≠ 1 := by
    intro h1
    have hqg : q ∣ (Int.gcd (keyFromPrimes (2 * q + 1) q).N
        (keyFromPrimes (2 * q + 1) q).PhiN : ℤ) := Int.dvd_gcd hdvdN hdvdPhi
    rw [h1] at hqg
    have := Int.le_of_dvd (by norm_num) hqg
    omega
  have hnone : ModInverse (keyFromPrimes (2 * q + 1) q).N
      (keyFromPrimes (2 * q + 1) q).PhiN = none := ModInverse_eq_none hgcd
  exact ⟨hdvdN, hPhi, hdvdPhi, hnone, by rw [RecoverRandomness, hnone]⟩

/-- Witness for `recoverRandomness_fails_on_safe_prime_key` at `q = 5`
(primes `11, 5`), `c = 1033`, `m = 1`. -/
theorem recoverRandomness_fails_on_safe_prime_key_witness :
    RecoverRandomness (keyFromPrimes (2 * 5 + 1) 5) 1033 1 = none :=
  (recoverRandomness_fails_on_safe_prime_key 5 (by norm_num) 1033 1).2.2.2.2

/-- Counterexample to **C2** as stated: for the safe-prime-shaped key with
`p = 11`, `q = 5` (so `N = 55`, `phi(N) = 40`, `gcd(N, phi(N)) = 5`),
`EncryptWithRandomness(m = 1, r = 2)` succeeds with ciphertext `1033`, yet
`RecoverRandomness(1033, 1)` returns an error instead of `r = 2`: `N` has no
inverse modulo `phi(N)`. -/
theorem recoverRandomness_not_universal :
    EncryptWithRandomness (keyFromPrimes 11 5).Public 1 2 = some 1033 ∧
    RecoverRandomness (keyFromPrimes 11 5) 1033 1 = none := by
  constructor
  · decide
  · decide

/-! ### Congruence view of the helpers -/

theorem ModMul_modEq (a b m : ℤ) : ModMul a b m ≡ a * b [ZMOD m] :=
  Int.emod_emod_of_dvd _ dvd_rfl

theorem ModSub_modEq (a b m : ℤ) : ModSub a b m ≡ a - b [ZMOD m] :=
  Int.emod_emod_of_dvd _ dvd_rfl

theorem ModExp_modEq (a : ℤ) (k : ℕ) (m : ℤ) : ModExp a k m ≡ a ^ k [ZMOD m] :=
  Int.emod_emod_of_dvd _ dvd_rfl

/-- Binomial congruence: `(N + 1)^k ≡ 1 + k*N` modulo `N²`. -/
theorem pow_base_succ_modEq (N : ℤ) (k : ℕ) :
    (N + 1) ^ k ≡ 1 + (k : ℤ) * N [ZMOD N * N] := by
  induction k with
  | zero => simpa using Int.ModEq.refl 1
  | succ n ih =>
    rw [pow_succ]
    push_cast
    calc (N + 1) ^ n * (N + 1)
        ≡ (1 + (n : ℤ) * N) * (N + 1) [ZMOD N * N] := ih.mul_right _
      _ ≡ 1 + ((n : ℤ) + 1) * N [ZMOD N * N] :=
        Int.modEq_iff_dvd.mpr ⟨-(n : ℤ), by ring⟩

/-- Core of the Paillier randomness-recovery round trip, for any key whose
fields have the shape `generateKey` produces (`N` a positive modulus, `N² =
N*N`, `G = N+1`, `PhiN` an exponent for which Euler's theorem holds) and whose
modulus is invertible modulo `PhiN`. -/
theorem recover_randomness_aux (n φ : ℕ) (hn1 : 1 < n) (hφ2 : 2 ≤ φ)
    (heuler : ∀ a : ℕ, Nat.Coprime a n → a ^ φ ≡ 1 [MOD n])
    (key : PrivateKey)
    (hN : key.N = (n : ℤ)) (hN2 : key.N2 = key.N * key.N)
    (hG : key.G = key.N + 1) (hPhi : key.PhiN = (φ : ℤ))
    (hco : Int.gcd key.N key.PhiN = 1)
    (m r : ℤ) (hm0 : 0 ≤ m) (hmN : m < key.N)
    (hr1 : 1 ≤ r) (hrN : r < key.N) (hrco : Int.gcd r key.N = 1) :
    ∃ c, EncryptWithRandomness key.Public m r = some c ∧
      RecoverRandomness key c m = some r := by
  have hNpos : 0 < key.N := by rw [hN]; exact_mod_cast Nat.lt_of_lt_of_le Nat.zero_lt_one hn1.le
  have hPhipos : 0 < key.PhiN := by rw [hPhi]; exact_mod_cast (by omega : 0 < φ)
  have hPhi1 : 1 < key.PhiN := by rw [hPhi]; exact_mod_cast (by omega : 1 < φ)
  have hPubN : key.Public.N = key.N := rfl
  have hPubG : key.Public.G = key.G := rfl
  have hPubN2 : key.Public.N2 = key.N2 := rfl
  refine ⟨ModMul (ModExp key.G m.toNat key.N2) (ModExp r key.N.toNat key.N2) key.N2, ?_, ?_⟩
  · rw [EncryptWithRandomness]
    rw [if_neg (by push_neg; rw [hPubN]; exact ⟨hm0, hmN⟩)]
    rw [if_neg (by push_neg; rw [hPubN]; exact ⟨by omega, hrN⟩)]
    rw [if_neg (by rw [hPubN]; simpa using hrco)]
    rfl
  · -- recovery
    have hMinv : ModInverse key.N key.PhiN = some (Int.gcdA key.N key.PhiN % key.PhiN) := by
      rw [ModInverse, if_pos hco]
    rw [RecoverRandomness, hMinv]
    set A := Int.gcdA key.N key.PhiN % key.PhiN with hAdef
    have hM0 : 0 ≤ A := Int.emod_nonneg _ (ne_of_gt hPhipos)
    -- N * A ≡ 1 (mod PhiN)
    have hNM : key.N * A ≡ 1 [ZMOD key.PhiN] := by
      have hbz : (Int.gcd key.N key.PhiN : ℤ)
          = key.N * Int.gcdA key.N key.PhiN + key.PhiN * Int.gcdB key.N key.PhiN :=
        Int.gcd_eq_gcd_ab _ _
      rw [hco] at hbz
      push_cast at hbz
      have h1 : A ≡ Int.gcdA key.N key.PhiN [ZMOD key.PhiN] :=
        Int.emod_emod_of_dvd _ dvd_rfl
      have h2 : key.N * A ≡ key.N * Int.gcdA key.N key.PhiN [ZMOD key.PhiN] := h1.mul_left _
      have h3 : key.N * Int.gcdA key.N key.PhiN ≡ 1 [ZMOD key.PhiN] :=
        Int.modEq_iff_dvd.mpr ⟨Int.gcdB key.N key.PhiN, by linarith⟩
      exact h2.trans h3
    have hmod1 : key.N * A % key.PhiN = 1 := by
      have h : key.N * A % key.PhiN = 1 % key.PhiN := hNM
      rwa [Int.emod_eq_of_lt (by norm_num) hPhi1] at h
    have hNMnn : 0 ≤ key.N * A := mul_nonneg hNpos.le hM0
    set Qt := key.N * A / key.PhiN with hQtdef
    have hQt0 : 0 ≤ Qt := Int.ediv_nonneg hNMnn hPhipos.le
    have hdiv : key.PhiN * Qt + 1 = key.N * A := by
      have h := Int.ediv_add_emod (key.N * A) key.PhiN
      rw [hmod1] at h
      exact h
    -- the exponent identity over ℕ
    have hexp : n * A.toNat = φ * Qt.toNat + 1 := by
      have h1 : ((n * A.toNat : ℕ) : ℤ) = ((φ * Qt.toNat + 1 : ℕ) : ℤ) := by
        push_cast [Int.toNat_of_nonneg hM0, Int.toNat_of_nonneg hQt0]
        rw [← hN, ← hPhi]
        linarith
      exact_mod_cast h1
    -- congruence chain modulo N²
    have hNt : key.N.toNat = n := by rw [hN, Int.toNat_natCast]
    have e1 : ModExp key.G m.toNat key.N2 ≡ 1 + m * key.N [ZMOD key.N2] := by
      refine (ModExp_modEq _ _ _).trans ?_
      have hb := pow_base_succ_modEq key.N m.toNat
      rw [Int.toNat_of_nonneg hm0] at hb
      rw [hG, hN2]
      exact hb
    have e2 : ModExp r key.N.toNat key.N2 ≡ r ^ n [ZMOD key.N2] := by
      refine (ModExp_modEq _ _ _).trans ?_
      rw [hNt]
    have e3 : ModSub 1 (ModMul m key.N key.N2) key.N2 ≡ 1 - m * key.N [ZMOD key.N2] :=
      (ModSub_modEq _ _ _).trans ((Int.ModEq.refl 1).sub (ModMul_modEq _ _ _))
    have hcd : ModMul (ModMul (ModExp key.G m.toNat key.N2) (ModExp r key.N.toNat key.N2) key.N2)
        (ModSub 1 (ModMul m key.N key.N2) key.N2) key.N2 ≡ r ^ n [ZMOD key.N2] := by
      refine (ModMul_modEq _ _ _).trans ?_
      refine (((ModMul_modEq _ _ _).trans (e1.mul e2)).mul e3).trans ?_
      rw [hN2]
      exact Int.modEq_iff_dvd.mpr ⟨m * m * r ^ n, by ring⟩
    have hdvdN : key.N ∣ key.N2 := by rw [hN2]; exact dvd_mul_right _ _
    have hcdN := hcd.of_dvd hdvdN
    -- Euler's theorem for r
    have heul : r ^ φ ≡ 1 [ZMOD key.N] := by
      have hna : r.natAbs.Coprime n := by
        have hg : Int.gcd r key.N = r.natAbs.gcd n := by
          rw [hN, Int.gcd, Int.natAbs_ofNat]
        rw [hg] at hrco
        exact hrco
      have h2 := heuler r.natAbs hna
      have h3 : ((r.natAbs : ℤ)) ^ φ ≡ 1 [ZMOD (n : ℤ)] := by
        have h4 := Int.natCast_modEq_iff.mpr h2
        rw [Nat.cast_pow, Nat.cast_one] at h4
        exact h4
      rw [Int.natAbs_of_nonneg (by omega : (0:ℤ) ≤ r)] at h3
      rw [hN]
      exact h3
    -- finish
    have hfin : ModExp (ModMul (ModMul (ModExp key.G m.toNat key.N2)
        (ModExp r key.N.toNat key.N2) key.N2)
        (ModSub 1 (ModMul m key.N key.N2) key.N2) key.N2) A.toNat key.N ≡ r [ZMOD key.N] := by
      refine (ModExp_modEq _ _ _).trans ?_
      refine (hcdN.pow A.toNat).trans ?_
      rw [← pow_mul, hexp, pow_add, pow_mul, pow_one]
      calc (r ^ φ) ^ Qt.toNat * r ≡ 1 ^ Qt.toNat * r [ZMOD key.N] :=
            (heul.pow Qt.toNat).mul_right r
        _ = r := by ring
    have hbound1 : 0 ≤ ModExp (ModMul (ModMul (ModExp key.G m.toNat key.N2)
        (ModExp r key.N.toNat key.N2) key.N2)
        (ModSub 1 (ModMul m key.N key.N2) key.N2) key.N2) A.toNat key.N :=
      Int.emod_nonneg _ (ne_of_gt hNpos)
    have hbound2 : ModExp (ModMul (ModMul (ModExp key.G m.toNat key.N2)
        (ModExp r key.N.toNat key.N2) key.N2)
        (ModSub 1 (ModMul m key.N key.N2) key.N2) key.N2) A.toNat key.N < key.N :=
      Int.emod_lt_of_pos _ hNpos
    have heq : ModExp (ModMul (ModMul (ModExp key.G m.toNat key.N2)
        (ModExp r key.N.toNat key.N2) key.N2)
        (ModSub 1 (ModMul m key.N key.N2) key.N2) key.N2) A.toNat key.N % key.N
        = r % key.N := hfin
    rw [Int.emod_eq_of_lt hbound1 hbound2, Int.emod_eq_of_lt (by omega) hrN] at heq
    exact congrArg some heq

/-- **C2 (amended)**: for every Paillier private key generated from distinct
primes `p, q` whose modulus is invertible modulo `phi(N)` — `gcd(N, phi(N)) =
1`, which the keys of `GenerateKeySafePrime` violate — every plaintext
`0 ≤ m < N` and every randomness `1 ≤ r < N` with `gcd(r, N) = 1`:
`EncryptWithRandomness(m, r)` succeeds, `RecoverRandomness(c, m)` succeeds and
returns exactly `r`. -/
theorem paillier_recover_randomness (p q : ℕ) (hp : p.Prime) (hq : q.Prime)
    (hpq : p ≠ q)
    (hco : Int.gcd (keyFromPrimes (p : ℤ) (q : ℤ)).N (keyFromPrimes (p : ℤ) (q : ℤ)).PhiN = 1)
    (m r : ℤ) (hm0 : 0 ≤ m) (hmN : m < (keyFromPrimes (p : ℤ) (q : ℤ)).N)
    (hr1 : 1 ≤ r) (hrN : r < (keyFromPrimes (p : ℤ) (q : ℤ)).N)
    (hrco : Int.gcd r (keyFromPrimes (p : ℤ) (q : ℤ)).N = 1) :
    ∃ c, EncryptWithRandomness (keyFromPrimes (p : ℤ) (q : ℤ)).Public m r = some c ∧
      RecoverRandomness (keyFromPrimes (p : ℤ) (q : ℤ)) c m = some r := by
  have hp2 := hp.two_le
  have hq2 := hq.two_le
  have hn1 : 1 < p * q := by
    have := Nat.mul_le_mul hp2 hq2
    omega
  have hphi2 : 2 ≤ (p - 1) * (q - 1) := by
    rcases Nat.eq_or_lt_of_le hp2 with he | h3
    · have hq3 : 3 ≤ q := by omega
      have h12 : p - 1 = 1 := by omega
      rw [h12, one_mul]
      omega
    · have h := Nat.mul_le_mul (show 2 ≤ p - 1 by omega) (show 1 ≤ q - 1 by omega)
      simpa using h
  have heuler : ∀ a : ℕ, Nat.Coprime a (p * q) →
      a ^ ((p - 1) * (q - 1)) ≡ 1 [MOD p * q] := by
    intro a ha
    have htot : Nat.totient (p * q) = (p - 1) * (q - 1) := by
      rw [Nat.totient_mul ((Nat.coprime_primes hp hq).mpr hpq),
        Nat.totient_prime hp, Nat.totient_prime hq]
    rw [← htot]
    exact Nat.ModEq.pow_totient ha
  refine recover_randomness_aux (p * q) ((p - 1) * (q - 1)) hn1 hphi2 heuler
    (keyFromPrimes (p : ℤ) (q : ℤ)) ?_ rfl rfl ?_ hco m r hm0 hmN hr1 hrN hrco
  · show (p : ℤ) * (q : ℤ) = ((p * q : ℕ) : ℤ)
    push_cast
    ring
  · show ((p : ℤ) - 1) * ((q : ℤ) - 1) = (((p - 1) * (q - 1) : ℕ) : ℤ)
    have e1 : ((p - 1 : ℕ) : ℤ) = (p : ℤ) - 1 := by omega
    have e2 : ((q - 1 : ℕ) : ℤ) = (q : ℤ) - 1 := by omega
    rw [Nat.cast_mul, e1, e2]

/-- Witness for `paillier_recover_randomness` at `p = 3`, `q = 5` (so `N =
15`, `phi(N) = 8`, `gcd(15, 8) = 1`), `m = 7`, `r = 2`. -/
theorem paillier_recover_randomness_witness :
    ∃ c, EncryptWithRandomness (keyFromPrimes ((3 : ℕ) : ℤ) ((5 : ℕ) : ℤ)).Public 7 2 = some c ∧
      RecoverRandomness (keyFromPrimes ((3 : ℕ) : ℤ) ((5 : ℕ) : ℤ)) c 7 = some 2 :=
  paillier_recover_randomness 3 5 (by norm_num) (by norm_num) (by norm_num)
    (by decide) 7 2 (by decide) (by decide) (by decide) (by decide) (by decide)

/-! ## pkg/ec and pkg/vss: elliptic-curve points and Feldman VSS

The library calls VSS with the `crypto/elliptic` curves, which are cyclic
groups of prime order `N` generated by the base point `G`.  A curve is
embedded by an identity tag plus its order `N`, and a point of a curve by its
discrete logarithm with respect to `G`, kept reduced into `[0, N)` by every
operation: two points of one curve are equal exactly when their discrete
logarithms agree, and points of distinct curves are embedded as unequal.  Go
feeds `k.Bytes()` — the big-endian bytes of the magnitude `|k|` — to
`ScalarBaseMult`/`ScalarMult`, so a scalar `k` acts on the cyclic group as
`|k| mod N` (`Int.natAbs` below), not as the Euclidean residue `k mod N`; for
negative `k` the two differ.  Nil-able pointers (`*ec.Point`, `*Share`,
`*Commitment`, nil `curve` interface values) are embedded as `Option`. -/

/-- A `crypto/elliptic` curve as VSS consumes it: an identity (Go compares
curves as interface values) and the prime order `N` of its group. -/
structure CurveP where
  id : ℕ
  N : ℤ
deriving DecidableEq

/-- `ec.Point` (ec source lines 9-13), embedded by the curve it lives on and
its discrete logarithm with respect to the base point. -/
structure PointE where
  Curve : Option CurveP
  dlog : ℤ
deriving DecidableEq

namespace ec

/-- `ec.ScalarBaseMult` (ec source lines 26-33): the curve is handed
`k.Bytes()`, the magnitude of `k`, so the result is `(|k| mod N) * G`. -/
def ScalarBaseMult (curve : CurveP) (k : ℤ) : PointE :=
  { Curve := some curve, dlog := (k.natAbs : ℤ) % curve.N }

/-- `ec.Point.ScalarMult` (ec source lines 37-47): `|k| * P` (the curve is
handed `k.Bytes()`, the magnitude of `k`); nil when the receiver or its curve
is nil. -/
def ScalarMult (p : Option PointE) (k : ℤ) : Option PointE :=
  match p with
  | none => none
  | some pt =>
    match pt.Curve with
    | none => none
    | some cv => some { Curve := some cv, dlog := pt.dlog * (k.natAbs : ℤ) % cv.N }

/-- `ec.Point.Add` (ec source lines 50-64): `P + Q`; nil when either argument
or either curve is nil, or the curves differ. -/
def Add (p q : Option PointE) : Option PointE :=
  match p, q with
  | some a, some b =>
    match a.Curve, b.Curve with
    | some ca, some cb =>
      if ca = cb then some { Curve := some ca, dlog := (a.dlog + b.dlog) % ca.N }
      else none
    | _, _ => none
  | _, _ => none

/-- `ec.Point.Equal` (ec source lines 67-72): pointer equality when either
side is nil, coordinate equality otherwise. -/
def Equal (p q : Option PointE) : Bool :=
  match p, q with
  | none, none => true
  | none, some _ => false
  | some _, none => false
  | some a, some b => decide (a.Curve = b.Curve) && decide (a.dlog = b.dlog)

/-- `ec.Point.Copy` (ec source lines 91-100): a value copy, `nil` for `nil`
(the identity in this value-typed embedding). -/
def Copy (p : Option PointE) : Option PointE := p

end ec

namespace vss

/-- `Share` (feldman.go lines 18-22): nil-able `Index` and `Value`
(`*big.Int`), and the `int` threshold. -/
structure Share where
  Index : Option ℤ
  Value : Option ℤ
  Threshold : ℤ
deriving DecidableEq

instance : Inhabited Share := ⟨⟨none, none, 0⟩⟩

/-- `Commitment` (feldman.go lines 29-32). -/
structure Commitment where
  Curve : Option CurveP
  Coeffs : List (Option PointE)
deriving DecidableEq

/-- `computeShare` (feldman.go lines 200-211): `f(index) = Σ a_i * index^i
(mod N)` accumulated with `ModExp`, `ModMul`, `ModAdd`. -/
def computeShare (N : ℤ) (coefficients : List ℤ) (index : ℤ) (threshold : ℕ) : ℤ :=
  (List.range threshold).foldl
    (fun share i =>
      ModAdd share (ModMul (coefficients.getD i 0) (ModExp index i N) N) N) 0

/-- `SplitSecret` (feldman.go lines 38-75) for a non-nil curve and secret.
`generateRandomPolynomial` (lines 186-197) draws the `threshold - 1`
coefficients `a_1, ..., a_{t-1}` from the cryptographic random source; the
draw is passed in as `tail` (so `polynomial = secret :: tail` with
`tail.length = threshold - 1`), which quantifies the theorems over every
possible draw. -/
def SplitSecret (curve : CurveP) (threshold : ℤ) (secret : ℤ) (tail : List ℤ)
    (indices : List ℤ) : Option (Commitment × List Share) :=
  if threshold < 1 then none
  else if indices.length = 0 then none
  else if (indices.length : ℤ) < threshold then none
  else
    let polynomial := secret :: tail
    let commitment : Commitment :=
      { Curve := some curve
        Coeffs := polynomial.map fun coeff => some (ec.ScalarBaseMult curve coeff) }
    let shares := indices.map fun index =>
      { Index := some index
        Value := some (computeShare curve.N polynomial index threshold.toNat)
        Threshold := threshold }
    some (commitment, shares)

/-- The selection loop of `Reconstruct` (feldman.go lines 86-95): append the
non-nil shares whose declared threshold matches, stopping as soon as
`threshold` many have been collected. -/
def selectLoop (threshold : ℤ) (acc : List Share) : List (Option Share) → List Share
  | [] => acc
  | none :: rest => selectLoop threshold acc rest
  | some s :: rest =>
    if s.Threshold = threshold then
      if ((acc.length + 1 : ℕ) : ℤ) = threshold then acc ++ [s]
      else selectLoop threshold (acc ++ [s]) rest
    else selectLoop threshold acc rest

/-- The per-`i` numerator/denominator accumulation of `lagrangeCoefficients`
(feldman.go lines 217-229): over `j ≠ i`, `num` is multiplied by `x_j` and
`den` by `ModSub x_j x_i`, modulo `N`. -/
def lagrangeNumDen (shares : List Share) (N : ℤ) (i : ℕ) : ℤ × ℤ :=
  (List.range shares.length).foldl
    (fun nd j =>
      if i = j then nd
      else
        (ModMul nd.1 ((shares.getD j default).Index.getD 0) N,
         ModMul nd.2
           (ModSub ((shares.getD j default).Index.getD 0)
             ((shares.getD i default).Index.getD 0) N) N))
    (1, 1)

/-- Option-valued list map: `none` as soon as `f` fails, mirroring the
source loops that return an error at the first failure. -/
def mapOpt {α β : Type} (f : α → Option β) : List α → Option (List β)
  | [] => some []
  | x :: xs =>
    match f x, mapOpt f xs with
    | some y, some ys => some (y :: ys)
    | _, _ => none

/-- `lagrangeCoefficients` (feldman.go lines 214-238): `λ_i = num_i *
den_i⁻¹ mod N`, failing when some denominator has no inverse. -/
def lagrangeCoefficients (shares : List Share) (N : ℤ) : Option (List ℤ) :=
  mapOpt
    (fun i =>
      match ModInverse (lagrangeNumDen shares N i).2 N with
      | none => none
      | some denInv => some (ModMul (lagrangeNumDen shares N i).1 denInv N))
    (List.range shares.length)

/-- `Reconstruct` (feldman.go lines 78-114) for a non-nil curve. -/
def Reconstruct (curve : CurveP) (threshold : ℤ) (shares : List (Option Share)) :
    Option ℤ :=
  if (shares.length : ℤ) < threshold then none
  else
    let N := curve.N
    let selected := selectLoop threshold [] shares
    if (selected.length : ℤ) < threshold then none
    else
      match lagrangeCoefficients selected N with
      | none => none
      | some lambdaCoeffs =>
        some ((List.range threshold.toNat).foldl
          (fun secret i =>
            ModAdd secret
              (ModMul ((selected.getD i default).Value.getD 0)
                (lambdaCoeffs.getD i 0) N) N)
          0)

/-- `Share.Verify` (feldman.go lines 122-157).  The outer `Option Bool`
separates the ordinary boolean returns (`some b`) from the code path on which
the source calls `curve.Params()` on a nil `curve` — a nil-pointer
dereference, i.e. a Go runtime panic — embedded as `none`. -/
def Verify (s : Option Share) (curve : Option CurveP) (commit : Option Commitment) :
    Option Bool :=
  match s, commit with
  | none, _ => some false
  | _, none => some false
  | some sh, some cm =>
    if sh.Index = none ∨ sh.Value = none ∨ sh.Threshold < 1 ∨
        sh.Threshold ≠ (cm.Coeffs.length : ℤ) then some false
    else if curve ≠ cm.Curve then some false
    else
      match curve with
      | none => none
      | some cv =>
        let N := cv.N
        let x := sh.Index.getD 0
        let st := cm.Coeffs.tail.foldl
          (fun (st : Option PointE × ℤ) c =>
            (ec.Add st.1 (ec.ScalarMult c st.2), ModMul st.2 x N))
          (ec.Copy (cm.Coeffs.getD 0 none), x)
        some (ec.Equal st.1 (some (ec.ScalarBaseMult cv (sh.Value.getD 0))))

end vss

/-- Counterexample to **C9** as stated: `Reconstruct` with threshold `0` and
an empty share list succeeds with value `0` — it performs no `t < 1`
validation, so no `InvalidInput` error is returned. -/
theorem reconstruct_accepts_zero_threshold :
    vss.Reconstruct { id := 0, N := 5 } 0 [] = some 0 := by
  decide

/-- **C9 (amended)**: `SplitSecret` rejects every threshold `t < 1` with an
error, but `Reconstruct` does not validate the threshold: with `t = 0` (for
example on an empty share list) it returns `0` with no error. -/
theorem splitSecret_rejects_low_threshold (cv : CurveP) (t : ℤ) (ht : t < 1)
    (secret : ℤ) (tail : List ℤ) (indices : List ℤ) :
    vss.SplitSecret cv t secret tail indices = none ∧
    vss.Reconstruct cv 0 [] = some 0 := by
  constructor
  · rw [vss.SplitSecret, if_pos ht]
  · show (if ((0 : ℤ) < 0) then none else _) = some 0
    rw [if_neg (by omega)]
    rfl

/-- Witness for `splitSecret_rejects_low_threshold` at `t = 0` on P-256-like
data. -/
theorem splitSecret_rejects_low_threshold_witness :
    vss.SplitSecret { id := 0, N := 5 } 0 3 [] [1, 2] = none ∧
    vss.Reconstruct { id := 0, N := 5 } 0 [] = some 0 :=
  splitSecret_rejects_low_threshold { id := 0, N := 5 } 0 (by norm_num) 3 [] [1, 2]

/-- **C5**: evaluation of `Verify` at the failing input: a well-formed share
`{Index: 1, Value: 0, Threshold: 1}`, a nil `curve`, and a commitment whose
`Curve` field is also nil with one non-nil coefficient point.  All the
malformed-input checks pass (a nil curve equals a nil commitment curve), and
the source then calls `curve.Params()` on the nil curve — a nil-pointer
dereference (runtime panic, embedded as `none`) instead of the boolean
`false` the claim requires. -/
theorem verify_nil_curve_dereference :
    vss.Verify (some { Index := some 1, Value := some 0, Threshold := 1 }) none
      (some { Curve := none, Coeffs := [some { Curve := some { id := 0, N := 5 }, dlog := 1 }] })
      = none := by
  decide

/-! ### Bridging lemmas between the folds of the source and `ZMod` sums -/

/-- Casting a `ModAdd` fold over `List.range n` into `ZMod P`. -/
theorem foldadd_cast (P : ℕ) (g : ℕ → ℤ) (a0 : ℤ) (n : ℕ) :
    (((List.range n).foldl (fun acc j => ModAdd acc (g j) (P : ℤ)) a0 : ℤ) : ZMod P)
      = (a0 : ZMod P) + ∑ j ∈ Finset.range n, (g j : ZMod P) := by
  induction n with
  | zero => simp
  | succ n ih =>
    rw [List.range_succ, List.foldl_append, List.foldl_cons, List.foldl_nil,
      ModAdd_cast, ih, Finset.sum_range_succ]
    ring

/-- A `ModAdd` fold stays inside `[0, N)` when it starts there. -/
theorem foldadd_bounds (N : ℤ) (hN : 0 < N) (g : ℕ → ℤ) :
    ∀ (l : List ℕ) (a0 : ℤ), 0 ≤ a0 → a0 < N →
      0 ≤ l.foldl (fun acc j => ModAdd acc (g j) N) a0 ∧
      l.foldl (fun acc j => ModAdd acc (g j) N) a0 < N := by
  intro l
  induction l with
  | nil => exact fun a0 h1 h2 => ⟨h1, h2⟩
  | cons x xs ih =>
    intro a0 h1 h2
    rw [List.foldl_cons]
    exact ih _ (ModAdd_nonneg hN) (ModAdd_lt hN)

/-- `computeShare` evaluates, in `ZMod P`, to the polynomial at the index. -/
theorem computeShare_cast (P : ℕ) (coeffs : List ℤ) (x : ℤ) (t : ℕ) :
    ((vss.computeShare (P : ℤ) coeffs x t : ℤ) : ZMod P)
      = ∑ j ∈ Finset.range t, (coeffs.getD j 0 : ZMod P) * (x : ZMod P) ^ j := by
  rw [vss.computeShare, foldadd_cast]
  simp [ModMul_cast, ModExp_cast]

/-- Two integers of `[0, P)` with the same image in `ZMod P` are equal. -/
theorem int_eq_of_zmod_eq {P : ℕ} {a b : ℤ} (h : (a : ZMod P) = (b : ZMod P))
    (ha0 : 0 ≤ a) (haP : a < (P : ℤ)) (hb0 : 0 ≤ b) (hbP : b < (P : ℤ)) : a = b := by
  have h2 : a % (P : ℤ) = b % (P : ℤ) := (ZMod.intCast_eq_intCast_iff a b P).mp h
  rwa [Int.emod_eq_of_lt ha0 haP, Int.emod_eq_of_lt hb0 hbP] at h2

/-- Shape of a successful `SplitSecret`: the commitment commits every
polynomial coefficient through `ScalarBaseMult`, and each share carries
`computeShare` of its index. -/
theorem splitSecret_eq (cv : CurveP) (t : ℤ) (ht : 1 ≤ t) (secret : ℤ)
    (tail : List ℤ) (indices : List ℤ) (hlen : t ≤ (indices.length : ℤ)) :
    vss.SplitSecret cv t secret tail indices =
      some ({ Curve := some cv,
              Coeffs := (secret :: tail).map fun a => some (ec.ScalarBaseMult cv a) },
            indices.map fun index =>
              ({ Index := some index,
                 Value := some (vss.computeShare cv.N (secret :: tail) index t.toNat),
                 Threshold := t } : vss.Share)) := by
  rw [vss.SplitSecret, if_neg (by omega), if_neg (by omega), if_neg (by omega)]

/-- Casting the paired `ModMul` fold of `lagrangeCoefficients` into products
over `ZMod P`, skipping position `i` as the source loop does. -/
theorem foldpair_cast (P : ℕ) (i : ℕ) (g h : ℕ → ℤ) (n : ℕ) :
    ((((List.range n).foldl
        (fun (nd : ℤ × ℤ) j =>
          if i = j then nd
          else (ModMul nd.1 (g j) (P : ℤ), ModMul nd.2 (h j) (P : ℤ)))
        (1, 1)).1 : ℤ) : ZMod P)
      = (∏ j ∈ Finset.range n, if i = j then 1 else (g j : ZMod P)) ∧
    ((((List.range n).foldl
        (fun (nd : ℤ × ℤ) j =>
          if i = j then nd
          else (ModMul nd.1 (g j) (P : ℤ), ModMul nd.2 (h j) (P : ℤ)))
        (1, 1)).2 : ℤ) : ZMod P)
      = ∏ j ∈ Finset.range n, if i = j then 1 else (h j : ZMod P) := by
  induction n with
  | zero => simp
  | succ n ih =>
    rw [List.range_succ, List.foldl_append, List.foldl_cons, List.foldl_nil]
    by_cases hin : i = n
    · rw [if_pos hin]
      refine ⟨?_, ?_⟩
      · rw [Finset.prod_range_succ, if_pos hin, mul_one]
        exact ih.1
      · rw [Finset.prod_range_succ, if_pos hin, mul_one]
        exact ih.2
    · rw [if_neg hin]
      refine ⟨?_, ?_⟩
      · show ((ModMul _ (g n) (P : ℤ) : ℤ) : ZMod P) = _
        rw [ModMul_cast, ih.1, Finset.prod_range_succ, if_neg hin]
      · show ((ModMul _ (h n) (P : ℤ) : ℤ) : ZMod P) = _
        rw [ModMul_cast, ih.2, Finset.prod_range_succ, if_neg hin]

/-- Over a prime modulus, an integer whose image in `ZMod P` is nonzero is
coprime with the modulus — the condition under which `big.Int.ModInverse`
(and hence `ModInverse`) succeeds. -/
theorem gcd_eq_one_of_cast_ne_zero {P : ℕ} (hP : P.Prime) {z : ℤ}
    (hz : ((z : ℤ) : ZMod P) ≠ 0) : Int.gcd z (P : ℤ) = 1 := by
  have hdvd : ¬ ((P : ℤ) ∣ z) := fun hd =>
    hz ((ZMod.intCast_zmod_eq_zero_iff_dvd z P).mpr hd)
  have hnd : ¬ (P ∣ z.natAbs) := by
    intro hd
    exact hdvd ((Int.dvd_natAbs).mp (Int.natCast_dvd_natCast.mpr hd))
  have hco : Nat.Coprime P z.natAbs := (Nat.Prime.coprime_iff_not_dvd hP).mpr hnd
  rw [Int.gcd, Int.natAbs_ofNat]
  exact Nat.Coprime.gcd_eq_one hco.symm

/-- `mapOpt` succeeds pointwise. -/
theorem mapOpt_eq_map {α β : Type} (f : α → Option β) (G : α → β) :
    ∀ l : List α, (∀ a ∈ l, f a = some (G a)) → vss.mapOpt f l = some (l.map G) := by
  intro l
  induction l with
  | nil => intro _; rfl
  | cons x xs ih =>
    intro hl
    unfold vss.mapOpt
    rw [hl x (List.mem_cons_self x xs), ih fun a ha => hl a (List.mem_cons_of_mem x ha),
      List.map_cons]

/-- The selection loop of `Reconstruct` collects an entire list of non-nil
shares with matching thresholds, as long as it does not exceed the target
count. -/
theorem selectLoop_all (t : ℤ) :
    ∀ (l : List vss.Share) (acc : List vss.Share),
      (∀ s ∈ l, s.Threshold = t) → ((acc.length + l.length : ℕ) : ℤ) ≤ t →
      vss.selectLoop t acc (l.map some) = acc ++ l := by
  intro l
  induction l with
  | nil =>
    intro acc _ _
    simp [vss.selectLoop]
  | cons s rest ih =>
    intro acc hall hle
    rw [List.map_cons]
    show vss.selectLoop t acc (some s :: rest.map some) = _
    rw [vss.selectLoop]
    rw [if_pos (hall s (List.mem_cons_self s rest))]
    by_cases hbreak : ((acc.length + 1 : ℕ) : ℤ) = t
    · have hrest : rest = [] := by
        cases rest with
        | nil => rfl
        | cons r rs =>
          exfalso
          simp only [List.length_cons] at hle
          omega
      subst hrest
      rw [if_pos hbreak]
    · rw [if_neg hbreak]
      rw [ih (acc ++ [s]) (fun a ha => hall a (List.mem_cons_of_mem s ha))
        (by
          simp only [List.length_append, List.length_cons, List.length_nil] at hle ⊢
          push_cast at hle ⊢
          omega)]
      simp

/-- Lagrange interpolation evaluated away from the nodes, at `0`: for a
polynomial of degree below the number of nodes, the weighted sum of its
values with the weights `Π x_j * (Π (x_j - x_i))⁻¹` recovers `f(0)`. -/
theorem lagrange_eval_zero {F : Type} [Field F] {ι : Type} [DecidableEq ι]
    (s : Finset ι) (v : ι → F) (hinj : Set.InjOn v s)
    (f : Polynomial F) (hdeg : f.degree < s.card) :
    ∑ i ∈ s, f.eval (v i) *
        ((∏ j ∈ s.erase i, v j) * (∏ j ∈ s.erase i, (v j - v i))⁻¹)
      = f.eval 0 := by
  have hbasis : ∀ i ∈ s, Polynomial.eval 0 (Lagrange.basis s v i)
      = (∏ j ∈ s.erase i, v j) * (∏ j ∈ s.erase i, (v j - v i))⁻¹ := by
    intro i _
    rw [Lagrange.basis, Polynomial.eval_prod, ← Finset.prod_inv_distrib,
      ← Finset.prod_mul_distrib]
    refine Finset.prod_congr rfl fun j _ => ?_
    rw [Lagrange.basisDivisor]
    simp only [Polynomial.eval_mul, Polynomial.eval_C, Polynomial.eval_sub,
      Polynomial.eval_X, zero_sub]
    rw [show v j - v i = -(v i - v j) from by ring, inv_neg]
    ring
  have h0 : f.eval 0 = ∑ i ∈ s, f.eval (v i) * Polynomial.eval 0 (Lagrange.basis s v i) := by
    conv_lhs => rw [Lagrange.eq_interpolate hinj hdeg]
    rw [Lagrange.interpolate_apply, Polynomial.eval_finset_sum]
    refine Finset.sum_congr rfl fun i _ => ?_
    rw [Polynomial.eval_mul, Polynomial.eval_C]
  rw [h0]
  exact Finset.sum_congr rfl fun i hi => by rw [hbasis i hi]

/-- The polynomial `Σ_{j < T} C (A j) * X^j` has degree below `T`. -/
theorem degree_range_sum_lt {F : Type} [Field F] (A : ℕ → F) (T : ℕ) :
    (∑ j ∈ Finset.range T, Polynomial.C (A j) * Polynomial.X ^ j).degree
      < (T : WithBot ℕ) := by
  apply lt_of_le_of_lt (Polynomial.degree_sum_le _ _)
  rw [Nat.cast_withBot, Finset.sup_lt_iff (WithBot.bot_lt_coe T)]
  intro j hj
  apply lt_of_le_of_lt (Polynomial.degree_C_mul_X_pow_le j (A j))
  rw [Nat.cast_withBot, WithBot.coe_lt_coe]
  exact Finset.mem_range.mp hj

/-- Evaluating `Σ_{j < T} C (A j) * X^j` at a point. -/
theorem eval_range_sum {F : Type} [Field F] (A : ℕ → F) (T : ℕ) (z : F) :
    (∑ j ∈ Finset.range T, Polynomial.C (A j) * Polynomial.X ^ j).eval z
      = ∑ j ∈ Finset.range T, A j * z ^ j := by
  rw [Polynomial.eval_finset_sum]
  refine Finset.sum_congr rfl fun j _ => ?_
  rw [Polynomial.eval_mul, Polynomial.eval_C, Polynomial.eval_pow, Polynomial.eval_X]

/-- Evaluating `Σ_{j < T} C (A j) * X^j` at `0` for `T ≥ 1` gives `A 0`. -/
theorem eval_range_sum_zero {F : Type} [Field F] (A : ℕ → F) (T : ℕ) (hT : 1 ≤ T) :
    (∑ j ∈ Finset.range T, Polynomial.C (A j) * Polynomial.X ^ j).eval 0 = A 0 := by
  rw [eval_range_sum]
  rw [Finset.sum_eq_single_of_mem 0 (Finset.mem_range.mpr (by omega))]
  · rw [pow_zero, mul_one]
  · intro j _ hj
    rw [zero_pow hj, mul_zero]

/-- Core correctness of `Reconstruct` modulo a prime `P`: applied to exactly
`t` well-formed shares of the polynomial `poly` (degree `< t`) at pairwise
distinct indices mod `P`, it succeeds and returns `poly(0) mod P`. -/
theorem reconstruct_spec (P : ℕ) (hP : P.Prime) (cv : CurveP) (hcv : cv.N = (P : ℤ))
    (t : ℤ) (ht : 1 ≤ t) (poly : List ℤ) (hpoly : (poly.length : ℤ) = t)
    (sub : List vss.Share) (hlen : (sub.length : ℤ) = t)
    (hform : ∀ s ∈ sub, s.Threshold = t ∧
      s.Value = some (vss.computeShare cv.N poly (s.Index.getD 0) t.toNat))
    (hdist : sub.Pairwise fun s s' =>
      ¬ (((s.Index.getD 0 : ℤ) : ZMod P) = ((s'.Index.getD 0 : ℤ) : ZMod P))) :
    vss.Reconstruct cv t (sub.map some) = some (poly.getD 0 0 % cv.N) := by
  obtain ⟨cid, cN⟩ := cv
  have hcv' : cN = (P : ℤ) := hcv
  subst hcv'
  have hform' : ∀ s ∈ sub, s.Threshold = t ∧
      s.Value = some (vss.computeShare (P : ℤ) poly (s.Index.getD 0) t.toNat) := hform
  clear hform hcv
  haveI : Fact P.Prime := ⟨hP⟩
  have hP0 : 0 < P := hP.pos
  have hNpos : (0 : ℤ) < (P : ℤ) := by exact_mod_cast hP0
  have hTn : t.toNat = sub.length := by omega
  -- the selection loop returns the whole list
  have hsel : vss.selectLoop t [] (sub.map some) = sub := by
    have h := selectLoop_all t sub [] (fun s hs => (hform' s hs).1)
      (by simp only [List.length_nil]; omega)
    simpa using h
  -- distinct index casts by position
  have hdistg : ∀ i j : ℕ, i < sub.length → j < sub.length → i ≠ j →
      (((sub.getD i default).Index.getD 0 : ℤ) : ZMod P)
        ≠ (((sub.getD j default).Index.getD 0 : ℤ) : ZMod P) := by
    intro i j hi hj hij
    have hpg := List.pairwise_iff_get.mp hdist
    rw [List.getD_eq_getElem _ _ hi, List.getD_eq_getElem _ _ hj]
    rcases Nat.lt_or_ge i j with hlt | hge
    · have h := hpg ⟨i, hi⟩ ⟨j, hj⟩ hlt
      simpa [List.get_eq_getElem] using h
    · have hlt : j < i := by omega
      have h := hpg ⟨j, hj⟩ ⟨i, hi⟩ hlt
      intro heq
      exact h (by simpa [List.get_eq_getElem] using heq.symm)
  -- numerator and denominator casts
  have hnumden : ∀ i, i < sub.length →
      (((vss.lagrangeNumDen sub (P : ℤ) i).1 : ℤ) : ZMod P)
        = (∏ j ∈ Finset.range sub.length,
            if i = j then 1 else (((sub.getD j default).Index.getD 0 : ℤ) : ZMod P)) ∧
      (((vss.lagrangeNumDen sub (P : ℤ) i).2 : ℤ) : ZMod P)
        = ∏ j ∈ Finset.range sub.length,
            if i = j then 1
            else (((sub.getD j default).Index.getD 0 : ℤ) : ZMod P)
               - (((sub.getD i default).Index.getD 0 : ℤ) : ZMod P) := by
    intro i _
    have hbase := foldpair_cast P i (fun j => (sub.getD j default).Index.getD 0)
      (fun j => ModSub ((sub.getD j default).Index.getD 0)
        ((sub.getD i default).Index.getD 0) (P : ℤ)) sub.length
    constructor
    · exact hbase.1
    · refine hbase.2.trans (Finset.prod_congr rfl fun j _ => ?_)
      by_cases hij : i = j
      · rw [if_pos hij, if_pos hij]
      · rw [if_neg hij, if_neg hij, ModSub_cast]
  -- denominators are nonzero in ZMod P
  have hdennz : ∀ i, i < sub.length →
      (((vss.lagrangeNumDen sub (P : ℤ) i).2 : ℤ) : ZMod P) ≠ 0 := by
    intro i hi
    rw [(hnumden i hi).2, Finset.prod_ne_zero_iff]
    intro j hj
    by_cases hij : i = j
    · rw [if_pos hij]
      exact one_ne_zero
    · rw [if_neg hij]
      exact sub_ne_zero.mpr (hdistg j i (Finset.mem_range.mp hj) hi fun h => hij h.symm)
  -- each modular inverse exists
  have hinv : ∀ i, i < sub.length →
      ModInverse (vss.lagrangeNumDen sub (P : ℤ) i).2 (P : ℤ)
        = some (Int.gcdA (vss.lagrangeNumDen sub (P : ℤ) i).2 (P : ℤ) % (P : ℤ)) := by
    intro i hi
    rw [ModInverse, if_pos (gcd_eq_one_of_cast_ne_zero hP (hdennz i hi))]
  -- the Lagrange coefficients succeed
  have hlag : vss.lagrangeCoefficients sub (P : ℤ) = some ((List.range sub.length).map
      fun i => ModMul (vss.lagrangeNumDen sub (P : ℤ) i).1
        (Int.gcdA (vss.lagrangeNumDen sub (P : ℤ) i).2 (P : ℤ) % (P : ℤ)) (P : ℤ)) := by
    rw [vss.lagrangeCoefficients]
    refine mapOpt_eq_map _ _ _ ?_
    intro i hi
    rw [hinv i (List.mem_range.mp hi)]
  -- positions of the produced coefficient list
  have hlamget : ∀ i, i < sub.length →
      ((List.range sub.length).map
        (fun i => ModMul (vss.lagrangeNumDen sub (P : ℤ) i).1
          (Int.gcdA (vss.lagrangeNumDen sub (P : ℤ) i).2 (P : ℤ) % (P : ℤ)) (P : ℤ))).getD i 0
      = ModMul (vss.lagrangeNumDen sub (P : ℤ) i).1
          (Int.gcdA (vss.lagrangeNumDen sub (P : ℤ) i).2 (P : ℤ) % (P : ℤ)) (P : ℤ) := by
    intro i hi
    rw [List.getD_eq_getElem _ _ (by simpa using hi), List.getElem_map, List.getElem_range]
  -- multiplying a denominator with its inverse gives 1 in ZMod P
  have hinvmul : ∀ i, i < sub.length →
      (((vss.lagrangeNumDen sub (P : ℤ) i).2 : ℤ) : ZMod P) *
        ((Int.gcdA (vss.lagrangeNumDen sub (P : ℤ) i).2 (P : ℤ) % (P : ℤ) : ℤ) : ZMod P)
        = 1 := by
    intro i hi
    exact (ModInverse_spec hP0 (hinv i hi)).1
  -- evaluate the control flow of Reconstruct
  show vss.Reconstruct ⟨cid, (P : ℤ)⟩ t (sub.map some) = some (poly.getD 0 0 % (P : ℤ))
  have hlt : ¬ ((sub.length : ℤ) < t) := by omega
  simp only [vss.Reconstruct, List.length_map]
  rw [hsel, if_neg hlt, if_neg hlt, hlag]
  refine congrArg some ?_
  -- compare both sides through their casts into ZMod P
  have hb := foldadd_bounds (P : ℤ) hNpos
    (fun i => ModMul ((sub.getD i default).Value.getD 0)
      (((List.range sub.length).map
        (fun i => ModMul (vss.lagrangeNumDen sub (P : ℤ) i).1
          (Int.gcdA (vss.lagrangeNumDen sub (P : ℤ) i).2 (P : ℤ) % (P : ℤ)) (P : ℤ))).getD i 0)
      (P : ℤ))
    (List.range t.toNat) 0 le_rfl hNpos
  refine int_eq_of_zmod_eq ?_ hb.1 hb.2
    (Int.emod_nonneg _ (ne_of_gt hNpos)) (Int.emod_lt_of_pos _ hNpos)
  rw [foldadd_cast, ZMod.intCast_mod, Int.cast_zero, zero_add]
  -- the value of each share is the polynomial at its index
  have hvals : ∀ i, i < sub.length →
      (((sub.getD i default).Value.getD 0 : ℤ) : ZMod P)
        = ∑ j ∈ Finset.range t.toNat, (poly.getD j 0 : ZMod P)
            * (((sub.getD i default).Index.getD 0 : ℤ) : ZMod P) ^ j := by
    intro i hi
    have hmem : sub.getD i default ∈ sub := by
      rw [List.getD_eq_getElem _ _ hi]
      exact List.getElem_mem _
    rw [(hform' _ hmem).2]
    simp only [Option.getD_some]
    exact computeShare_cast P poly _ t.toNat
  -- each summand is a Lagrange term
  have hsum : ∀ i ∈ Finset.range t.toNat,
      ((ModMul ((sub.getD i default).Value.getD 0)
        (((List.range sub.length).map
          (fun i => ModMul (vss.lagrangeNumDen sub (P : ℤ) i).1
            (Int.gcdA (vss.lagrangeNumDen sub (P : ℤ) i).2 (P : ℤ) % (P : ℤ)) (P : ℤ))).getD i 0)
        (P : ℤ) : ℤ) : ZMod P)
      = (∑ j ∈ Finset.range t.toNat, (poly.getD j 0 : ZMod P)
            * (((sub.getD i default).Index.getD 0 : ℤ) : ZMod P) ^ j)
        * ((∏ j ∈ (Finset.range sub.length).erase i,
              (((sub.getD j default).Index.getD 0 : ℤ) : ZMod P))
          * (∏ j ∈ (Finset.range sub.length).erase i,
              ((((sub.getD j default).Index.getD 0 : ℤ) : ZMod P)
                - (((sub.getD i default).Index.getD 0 : ℤ) : ZMod P)))⁻¹) := by
    intro i hirange
    have hi : i < sub.length := by
      have := Finset.mem_range.mp hirange
      omega
    have herase : ∀ F : ℕ → ZMod P,
        (∏ j ∈ Finset.range sub.length, if i = j then 1 else F j)
          = ∏ j ∈ (Finset.range sub.length).erase i, F j := by
      intro F
      calc (∏ j ∈ Finset.range sub.length, if i = j then 1 else F j)
          = ∏ j ∈ (Finset.range sub.length).erase i, (if i = j then 1 else F j) :=
            (Finset.prod_erase _ (by rw [if_pos rfl])).symm
        _ = ∏ j ∈ (Finset.range sub.length).erase i, F j :=
            Finset.prod_congr rfl fun j hj => by
              rw [if_neg (Ne.symm (Finset.ne_of_mem_erase hj))]
    have hprodnum : (((vss.lagrangeNumDen sub (P : ℤ) i).1 : ℤ) : ZMod P)
        = ∏ j ∈ (Finset.range sub.length).erase i,
            (((sub.getD j default).Index.getD 0 : ℤ) : ZMod P) :=
      ((hnumden i hi).1).trans (herase _)
    have hprodden : (((vss.lagrangeNumDen sub (P : ℤ) i).2 : ℤ) : ZMod P)
        = ∏ j ∈ (Finset.range sub.length).erase i,
            ((((sub.getD j default).Index.getD 0 : ℤ) : ZMod P)
              - (((sub.getD i default).Index.getD 0 : ℤ) : ZMod P)) :=
      ((hnumden i hi).2).trans (herase _)
    have hinveq : ((Int.gcdA (vss.lagrangeNumDen sub (P : ℤ) i).2 (P : ℤ) % (P : ℤ) : ℤ) : ZMod P)
        = (∏ j ∈ (Finset.range sub.length).erase i,
            ((((sub.getD j default).Index.getD 0 : ℤ) : ZMod P)
              - (((sub.getD i default).Index.getD 0 : ℤ) : ZMod P)))⁻¹ := by
      rw [← hprodden]
      exact eq_inv_of_mul_eq_one_left (by rw [mul_comm]; exact hinvmul i hi)
    rw [ModMul_cast, hvals i hi, hlamget i hi, ModMul_cast, hprodnum, hinveq]
  rw [Finset.sum_congr rfl hsum, hTn]
  -- Lagrange interpolation at 0
  have hinj : Set.InjOn (fun j : ℕ => (((sub.getD j default).Index.getD 0 : ℤ) : ZMod P))
      (Finset.range sub.length) := by
    intro a ha b hb heq
    by_contra hne
    exact hdistg a b (Finset.mem_range.mp (Finset.mem_coe.mp ha))
      (Finset.mem_range.mp (Finset.mem_coe.mp hb)) hne heq
  have hdeg := degree_range_sum_lt (fun j => ((poly.getD j 0 : ℤ) : ZMod P)) sub.length
  have hlz := lagrange_eval_zero (Finset.range sub.length)
    (fun j : ℕ => (((sub.getD j default).Index.getD 0 : ℤ) : ZMod P)) hinj
    (∑ j ∈ Finset.range sub.length,
      Polynomial.C ((poly.getD j 0 : ℤ) : ZMod P) * Polynomial.X ^ j)
    (by rw [Finset.card_range]; exact hdeg)
  rw [eval_range_sum_zero _ _ (by omega)] at hlz
  calc ∑ i ∈ Finset.range sub.length,
        (∑ j ∈ Finset.range sub.length, (poly.getD j 0 : ZMod P)
            * (((sub.getD i default).Index.getD 0 : ℤ) : ZMod P) ^ j)
          * ((∏ j ∈ (Finset.range sub.length).erase i,
                (((sub.getD j default).Index.getD 0 : ℤ) : ZMod P))
            * (∏ j ∈ (Finset.range sub.length).erase i,
                ((((sub.getD j default).Index.getD 0 : ℤ) : ZMod P)
                  - (((sub.getD i default).Index.getD 0 : ℤ) : ZMod P)))⁻¹)
      = ∑ i ∈ Finset.range sub.length,
          (∑ j ∈ Finset.range sub.length,
            Polynomial.C ((poly.getD j 0 : ℤ) : ZMod P) * Polynomial.X ^ j).eval
              (((sub.getD i default).Index.getD 0 : ℤ) : ZMod P)
          * ((∏ j ∈ (Finset.range sub.length).erase i,
                (((sub.getD j default).Index.getD 0 : ℤ) : ZMod P))
            * (∏ j ∈ (Finset.range sub.length).erase i,
                ((((sub.getD j default).Index.getD 0 : ℤ) : ZMod P)
                  - (((sub.getD i default).Index.getD 0 : ℤ) : ZMod P)))⁻¹) := by
        refine Finset.sum_congr rfl fun i _ => ?_
        rw [eval_range_sum]
    _ = (poly.getD 0 0 : ZMod P) := hlz

/-- **C1**: VSS round trip.  For a prime-order curve, every threshold
`t ≥ 1`, every secret in `[0, N)`, every random polynomial tail, and every
list of at least `t` indices that are nonzero and pairwise distinct mod `N`,
`SplitSecret` succeeds, and `Reconstruct` on any sub-selection of exactly `t`
of the returned shares returns the secret. -/
theorem vss_round_trip (P : ℕ) (hP : P.Prime) (cv : CurveP) (hcv : cv.N = (P : ℤ))
    (t : ℤ) (ht : 1 ≤ t) (secret : ℤ) (hsec0 : 0 ≤ secret) (hsecN : secret < cv.N)
    (tail : List ℤ) (htail : (tail.length : ℤ) = t - 1)
    (indices : List ℤ) (hlen : t ≤ (indices.length : ℤ))
    (hnz : ∀ x ∈ indices, ¬ ((x : ZMod P) = 0))
    (hdista : indices.Pairwise fun a b : ℤ => ¬ ((a : ZMod P) = (b : ZMod P))) :
    ∃ cm shs, vss.SplitSecret cv t secret tail indices = some (cm, shs) ∧
      ∀ sub : List vss.Share, List.Subperm sub shs → (sub.length : ℤ) = t →
        vss.Reconstruct cv t (sub.map some) = some secret := by
  refine ⟨_, _, splitSecret_eq cv t ht secret tail indices hlen, ?_⟩
  intro sub hsub hsublen
  have hform : ∀ s ∈ sub, s.Threshold = t ∧
      s.Value = some (vss.computeShare cv.N (secret :: tail) (s.Index.getD 0) t.toNat) := by
    intro s hs
    have hmem := hsub.subset hs
    rw [List.mem_map] at hmem
    obtain ⟨x, hx, hxe⟩ := hmem
    subst hxe
    exact ⟨rfl, rfl⟩
  have hpair : (indices.map fun index =>
      ({ Index := some index,
         Value := some (vss.computeShare cv.N (secret :: tail) index t.toNat),
         Threshold := t } : vss.Share)).Pairwise fun s s' =>
      ¬ (((s.Index.getD 0 : ℤ) : ZMod P) = ((s'.Index.getD 0 : ℤ) : ZMod P)) := by
    rw [List.pairwise_map]
    exact hdista
  have hdist : sub.Pairwise fun s s' =>
      ¬ (((s.Index.getD 0 : ℤ) : ZMod P) = ((s'.Index.getD 0 : ℤ) : ZMod P)) := by
    obtain ⟨m, hperm, hsubl⟩ := hsub
    exact (hperm.pairwise_iff fun h hh => h hh.symm).mp (hpair.sublist hsubl)
  have hpoly : (((secret :: tail).length : ℕ) : ℤ) = t := by
    simp only [List.length_cons]
    push_cast
    omega
  have hrec := reconstruct_spec P hP cv hcv t ht (secret :: tail) hpoly sub hsublen
    hform hdist
  rw [hrec]
  refine congrArg some ?_
  rw [List.getD_cons_zero]
  exact Int.emod_eq_of_lt hsec0 hsecN

/-- Witness for `vss_round_trip`: the order-5 curve, `t = 2`, secret `3`,
polynomial `3 + x`, indices `[1, 2]`; the two produced shares `(1, 4)` and
`(2, 0)` reconstruct `3`. -/
theorem vss_round_trip_witness :
    vss.Reconstruct ⟨0, 5⟩ 2
      (([⟨some 1, some 4, 2⟩, ⟨some 2, some 0, 2⟩] : List vss.Share).map some)
      = some 3 := by
  obtain ⟨cm, shs, hsplit, hrec⟩ :=
    vss_round_trip 5 (by norm_num) ⟨0, 5⟩ rfl 2 (by norm_num) 3 (by norm_num)
      (by norm_num) [1] (by norm_num) [1, 2] (by norm_num) (by decide) (by decide)
  have hconc : vss.SplitSecret ⟨0, 5⟩ 2 3 [1] [1, 2] =
      some ({ Curve := some ⟨0, 5⟩,
              Coeffs := [some ⟨some ⟨0, 5⟩, 3⟩, some ⟨some ⟨0, 5⟩, 1⟩] },
            [⟨some 1, some 4, 2⟩, ⟨some 2, some 0, 2⟩]) := by decide
  have hshs : ([⟨some 1, some 4, 2⟩, ⟨some 2, some 0, 2⟩] : List vss.Share) = shs :=
    (Prod.ext_iff.mp (Option.some.inj (hconc.symm.trans hsplit))).2
  exact hrec [⟨some 1, some 4, 2⟩, ⟨some 2, some 0, 2⟩]
    (hshs ▸ List.Subperm.refl _) (by norm_num)
